import Mathlib

/-!
Verification development for the fiber-channel propagation engine of NFDMLab.

The definitions below are a shallow embedding of the Python sources

  Links/_DDFssprop.py     (profile-mode split-step integrator)
  Links/_ssprop.py        (legacy higher-order-dispersion integrator)
  Links/DDF_profile.py    (dispersion-decreasing fiber profile solver)
  Links/DDFSplitStep.py   (link orchestration, amplification and ASE noise)

into Lean over exact real and complex arithmetic.  Sampled fields are
functions from Fin nt to the complex numbers; the numpy FFT and inverse
FFT are modelled by the standard discrete Fourier transform with the
numpy sign and scaling conventions.  Machine floating point is replaced
by exact arithmetic; the numpy global random generator is modelled by an
explicit stream of real draws together with a consumption offset.
-/

open scoped BigOperators

noncomputable section

namespace NFDMLab

/-! ## Definitions: shallow embedding of the propagation engine -/

/-- Model of numpy.fft.fft with the numpy sign convention. -/
def fft {n : ℕ} (v : Fin n → ℂ) : Fin n → ℂ := fun k =>
  ∑ j : Fin n, v j * Complex.exp (-(2 * (Real.pi : ℂ) * Complex.I * (j : ℕ) * (k : ℕ)) / n)

/-- The unnormalized positive-sign Fourier sum; ifft is this divided by n. -/
def dftPlus {n : ℕ} (v : Fin n → ℂ) : Fin n → ℂ := fun j =>
  ∑ k : Fin n, v k * Complex.exp (2 * (Real.pi : ℂ) * Complex.I * (j : ℕ) * (k : ℕ) / n)

/-- Model of numpy.fft.ifft with the numpy scaling convention. -/
def ifft {n : ℕ} (v : Fin n → ℂ) : Fin n → ℂ := fun j =>
  ((n : ℂ))⁻¹ * ∑ k : Fin n, v k * Complex.exp (2 * (Real.pi : ℂ) * Complex.I * (j : ℕ) * (k : ℕ) / n)

/-- Energy of a sampled field: the sum of squared moduli times the time step. -/
def energy {n : ℕ} (dt : ℝ) (v : Fin n → ℂ) : ℝ := (∑ j : Fin n, Complex.normSq (v j)) * dt

/-- The DFT frequency grid of _DDFssprop:
w = 2 pi hstack(arange(0, nt/2), arange(-nt/2, 0)) / (dt nt). -/
def wgrid (nt : ℕ) (dt : ℝ) (k : Fin nt) : ℝ :=
  2 * Real.pi * (if (k : ℕ) < nt / 2 then ((k : ℕ) : ℝ) else ((k : ℕ) : ℝ) - nt) / (dt * nt)

/-- The half-step linear operator of _DDFssprop: exp (1j beta w^2 / 2 dz / 2). -/
def halfstepOp (nt : ℕ) (dt dz beta : ℝ) (k : Fin nt) : ℂ :=
  Complex.exp (Complex.I * (beta : ℂ) * ((wgrid nt dt k : ℝ) : ℂ) ^ 2 / 2 * (dz : ℂ) / 2)

/-- One iteration of the iz loop of _DDFssprop: symmetric split step with
per-step dispersion beta and nonlinearity gamma, followed by the attenuation
factor exp (-(alpha/2) dz).  abs(u)**2 is modelled by Complex.normSq. -/
def ddfStep (nt : ℕ) (dt dz alpha beta gamma : ℝ) (u1 : Fin nt → ℂ) : Fin nt → ℂ :=
  let uhalf := ifft (fun k => halfstepOp nt dt dz beta k * fft u1 k)
  let uv := fun j => uhalf j *
    Complex.exp (Complex.I * (gamma : ℂ) * ((Complex.normSq (u1 j) * dz : ℝ) : ℂ))
  let uv2 := ifft (fun k => halfstepOp nt dt dz beta k * fft uv k)
  fun j => uv2 j * ((Real.exp (-(alpha / 2) * dz) : ℝ) : ℂ)

/-- Model of _DDFssprop (Links/_DDFssprop.py): fold the per-step update over
the nz spatial steps, reading the step coefficients from the profile arrays
D and R.  The assert nt % 2 == 0 of the source is modelled as an explicit
evenness hypothesis in the theorems about this function. -/
def _DDFssprop (nt : ℕ) (dt dz : ℝ) (nz : ℕ) (alpha : ℝ) (D R : ℕ → ℝ)
    (u0 : Fin nt → ℂ) : Fin nt → ℂ :=
  (List.range nz).foldl (fun u iz => ddfStep nt dt dz alpha (D iz) (R iz) u) u0

/-- Modelled from the spec (the reading asserted by claim C2): one
profile-mode step as half-step linear operator, pointwise nonlinear rotation,
half-step linear operator, with no final separate attenuation factor. -/
def specStepNoLoss (nt : ℕ) (dt dz beta gamma : ℝ) (u1 : Fin nt → ℂ) : Fin nt → ℂ :=
  let uhalf := ifft (fun k => halfstepOp nt dt dz beta k * fft u1 k)
  let uv := fun j => uhalf j *
    Complex.exp (Complex.I * (gamma : ℂ) * ((Complex.normSq (u1 j) * dz : ℝ) : ℂ))
  ifft (fun k => halfstepOp nt dt dz beta k * fft uv k)

/-- Speed of light constant of DDF_profile.py. -/
def clight : ℝ := 3e8

/-- Center wavelength constant of DDF_profile.py. -/
def lambda0 : ℝ := 1.55e-6

/-- kappa = lambda0^2 1e-6 / (2 pi c). -/
def kappa : ℝ := lambda0 ^ 2 * 1e-6 / (2 * Real.pi * clight)

/-- BETA20 = abs(beta20): the solver works with the absolute value. -/
def BETA20 (beta20 : ℝ) : ℝ := |beta20|

/-- GAMMA0 = abs(gamma0): the solver works with the absolute value. -/
def GAMMA0 (gamma0 : ℝ) : ℝ := |gamma0|

/-- Reference core radius R0 = (BETA20/kappa + 20)/8. -/
def R0 (beta20 : ℝ) : ℝ := (BETA20 beta20 / kappa + 20) / 8

/-- Nonlinear index n2 = GAMMA0 (lambda0 pi (R0 1e-6)^2)/(2 pi). -/
def n2coef (beta20 gamma0 : ℝ) : ℝ :=
  GAMMA0 gamma0 * (lambda0 * Real.pi * (R0 beta20 * 1e-6) ^ 2) / (2 * Real.pi)

/-- Constant term scale a = BETA20 R0^2. -/
def acoef (beta20 : ℝ) : ℝ := BETA20 beta20 * R0 beta20 ^ 2

/-- The cubic polynomial p = [8 kappa, -20 kappa, 0, -a exp(-2 alpha dz i)]
whose roots np.roots is asked for at step i; the solver first replaces alpha
by alpha/2 (power to field attenuation). -/
def radCubic (alpha beta20 dz : ℝ) (i : ℕ) (x : ℝ) : ℝ :=
  8 * kappa * x ^ 3 - 20 * kappa * x ^ 2
    - acoef beta20 * Real.exp (-2 * (alpha / 2) * dz * (i : ℝ))

/-- Rad is a radius profile produced by the solver when every entry is a real
root of the corresponding cubic.  This models Rad_roots[0].real under the
root-selection intent documented in the source (the physically meaningful
real root); for the parameter ranges of the solver the cubic has exactly one
real root, so the choice is forced. -/
def IsRadProfile (alpha beta20 dz : ℝ) (nz : ℕ) (Rad : ℕ → ℝ) : Prop :=
  ∀ i < nz, radCubic alpha beta20 dz i (Rad i) = 0

/-- Output dispersion profile: BETA2 = -kappa (8 Rad - 20). -/
def BETA2prof (Rad : ℕ → ℝ) (i : ℕ) : ℝ := -kappa * (8 * Rad i - 20)

/-- Output nonlinearity profile: GAMMA = 2 pi n2 / (lambda0 pi (Rad 1e-6)^2). -/
def GAMMAprof (beta20 gamma0 : ℝ) (Rad : ℕ → ℝ) (i : ℕ) : ℝ :=
  2 * Real.pi * n2coef beta20 gamma0 / (lambda0 * Real.pi * (Rad i * 1e-6) ^ 2)

/-- Configuration of a DDFSplitStep link, as stored by the constructor. -/
structure LinkCfg where
  dt : ℝ
  dz : ℝ
  nz : ℕ
  alpha : ℝ
  beta2 : ℝ
  gamma : ℝ
  nSpans : ℕ
  postBoost : Bool
  noise : Bool
  noiseFigure : ℝ
  centerFrequency : ℝ

/-- The constructor stores self._alpha = alpha * log(10) * 0.1. -/
def alphaLog (L : LinkCfg) : ℝ := L.alpha * Real.log 10 * 0.1

/-- The constructor stores self._gain = dz * nz * alpha. -/
def gainDb (L : LinkCfg) : ℝ := L.dz * (L.nz : ℝ) * L.alpha

/-- Planck constant as in scipy.constants. -/
def Planck : ℝ := 6.62607015e-34

/-- Model of DDFSplitStep._ASE_noise_power.  The Python float division
(G Fn - 1)/2/(G - 1) raises ZeroDivisionError when G = 1, modelled by none. -/
def ASE_noise_power (noiseFlag : Bool) (gain nf fc : ℝ) : Option ℝ :=
  if noiseFlag = false then some 0
  else
    let G := (10 : ℝ) ^ (gain / 10 : ℝ)
    let Fn := (10 : ℝ) ^ (nf / 10 : ℝ)
    if G - 1 = 0 then none
    else some (max 0 ((G * Fn - 1) / 2 / (G - 1) * Planck * fc * (G - 1)))

/-- The hidden process-wide numpy random state, modelled as a stream of
standard normal draws together with the number of draws consumed so far. -/
structure RngState where
  stream : ℕ → ℝ
  offset : ℕ

/-- Model of np.random.randn(n) acting on the hidden global state: it returns
the next n draws of the stream and advances the shared offset. -/
def randn (n : ℕ) (s : RngState) : (Fin n → ℝ) × RngState :=
  (fun j => s.stream (s.offset + (j : ℕ)), ⟨s.stream, s.offset + n⟩)

/-- Model of DDFSplitStep._ASE_noise: wgn = sqrt(0.5) (randn + 1j randn),
scaled by c = sqrt(ASE_noise_power / dt). -/
def ASE_noise (L : LinkCfg) (n : ℕ) (s : RngState) : Option ((Fin n → ℂ) × RngState) :=
  let re := randn n s
  let im := randn n re.2
  match ASE_noise_power L.noise (gainDb L) L.noiseFigure L.centerFrequency with
  | none => none
  | some P =>
      some (fun j => ((Real.sqrt (P / L.dt) : ℝ) : ℂ) *
        (((Real.sqrt 0.5 : ℝ) : ℂ) * (((re.1 j : ℝ) : ℂ) + Complex.I * ((im.1 j : ℝ) : ℂ))),
        im.2)

/-- One span of DDFSplitStep.transmit: propagate with _DDFssprop using the
profile arrays, then, when post_boost is set, multiply by
exp(gain log(10) 0.05) and add a fresh ASE noise vector.  alpha is scalar
here (the vector-alpha configuration is settled by the event-trace model
below). -/
def spanOp {nt : ℕ} (L : LinkCfg) (D R : ℕ → ℝ) (p : (Fin nt → ℂ) × RngState) :
    Option ((Fin nt → ℂ) × RngState) :=
  let u1 := _DDFssprop nt L.dt L.dz L.nz (alphaLog L) D R p.1
  if L.postBoost then
    match ASE_noise L nt p.2 with
    | none => none
    | some q =>
        some (fun j => u1 j * ((Real.exp (gainDb L * Real.log 10 * 0.05) : ℝ) : ℂ) + q.1 j, q.2)
  else some (u1, p.2)

/-- Model of DDFSplitStep.transmit: the source has a dedicated branch for
n_spans == 1 and a loop over spans otherwise; both branch bodies perform the
same per-span operations.  The profile arrays D and R are passed in once:
Get_Beta_Gamma_Profile is a pure function of parameters that do not include
n_spans or the input field, so every call inside transmit yields the same
arrays. -/
def transmit {nt : ℕ} (L : LinkCfg) (D R : ℕ → ℝ) (u : Fin nt → ℂ) (s : RngState) :
    Option ((Fin nt → ℂ) × RngState) :=
  if L.nSpans = 1 then spanOp L D R (u, s)
  else (List.range L.nSpans).foldl (fun acc _ => acc.bind (spanOp L D R)) (some (u, s))

/-- Events of one transmit call.  rootsEv i is the np.roots call of the
profile-solver loop at step i; propagateEv i is the _DDFssprop call for span
i; boostEv and noiseEv are the gain multiplication and the noise addition of
span i. -/
inductive TransmitEv where
  | rootsEv : ℕ → TransmitEv
  | propagateEv : ℕ → TransmitEv
  | boostEv : ℕ → TransmitEv
  | noiseEv : ℕ → TransmitEv
deriving DecidableEq

/-- Ways a transmit call terminates with an exception.  numpyRootsError is
the ValueError raised by np.roots when the cubic coefficient list p is
ragged (its last entry -a*exp(-2*alpha*dz*i) is an array because alpha is a
vector); boostConfigError is the dedicated raise of transmit for a
non-scalar alpha with boost; emptyProfileIndexError is the IndexError from
BETA2[0] on an empty profile when nz = 0. -/
inductive TransmitErr where
  | numpyRootsError : TransmitErr
  | boostConfigError : TransmitErr
  | emptyProfileIndexError : TransmitErr
deriving DecidableEq

/-- Control-flow model of Get_Beta_Gamma_Profile: the loop calls np.roots on
p = [8 kappa, -20 kappa, 0, -a exp(-2 alpha dz i)] at each step i.  With a
vector alpha (np.size(alpha) different from 1, so the stored self._alpha is
a numpy array of that length) the last entry of p is an array, the list is
ragged, and np.roots raises at the first step, before any further work.
With scalar alpha all nz root calls run; for nz = 0 the loop is empty but
the normalization BETA2[0] then raises an IndexError. -/
def profileEvents (alphaSize nz : ℕ) : List TransmitEv × Option TransmitErr :=
  if 0 < nz then
    (if alphaSize ≠ 1 then ([TransmitEv.rootsEv 0], some TransmitErr.numpyRootsError)
     else ((List.range nz).map TransmitEv.rootsEv, none))
  else ([], some TransmitErr.emptyProfileIndexError)

/-- Events of the span loop of transmit (the n_spans > 1 branch), reached
only when the profile computation succeeded: each span propagates first;
with post_boost set, the alpha.size check either raises the dedicated
configuration error (non-scalar alpha) or passes, and then boost and noise
are applied and the loop continues. -/
def spanLoopEvents (postBoost : Bool) (alphaSize : ℕ) : ℕ → ℕ → List TransmitEv × Option TransmitErr
  | _, 0 => ([], none)
  | i, r + 1 =>
    if postBoost then
      (if alphaSize ≠ 1 then ([TransmitEv.propagateEv i], some TransmitErr.boostConfigError)
       else
        let rest := spanLoopEvents postBoost alphaSize (i + 1) r
        (TransmitEv.propagateEv i :: TransmitEv.boostEv i :: TransmitEv.noiseEv i :: rest.1,
          rest.2))
    else
      let rest := spanLoopEvents postBoost alphaSize (i + 1) r
      (TransmitEv.propagateEv i :: rest.1, rest.2)

/-- Event trace of DDFSplitStep.transmit in statement order: transmit first
calls Get_Beta_Gamma_Profile (whose loop can raise inside np.roots), and
only if that returns does it run either the dedicated single-span branch or
the span loop, each of which propagates before the post_boost alpha.size
check. -/
def transmitEvents (nSpans : ℕ) (postBoost : Bool) (alphaSize nz : ℕ) :
    List TransmitEv × Option TransmitErr :=
  let prof := profileEvents alphaSize nz
  match prof.2 with
  | some e => (prof.1, some e)
  | none =>
    if nSpans = 1 then
      (if postBoost then
        (if alphaSize ≠ 1 then
          (prof.1 ++ [TransmitEv.propagateEv 0], some TransmitErr.boostConfigError)
         else
          (prof.1 ++ [TransmitEv.propagateEv 0, TransmitEv.boostEv 0, TransmitEv.noiseEv 0],
            none))
       else (prof.1 ++ [TransmitEv.propagateEv 0], none))
    else
      let loop := spanLoopEvents postBoost alphaSize 0 nSpans
      (prof.1 ++ loop.1, loop.2)

/-- Recognizer for propagation events. -/
def isPropagateEv : TransmitEv → Bool
  | TransmitEv.propagateEv _ => true
  | _ => false

/-- Euclidean norm, model of np.linalg.norm. -/
def l2norm {nt : ℕ} (v : Fin nt → ℂ) : ℝ := Real.sqrt (∑ j : Fin nt, Complex.normSq (v j))

/-- The dispersion polynomial operator of _ssprop:
halfstep = sum over ii of  -1j betap[ii] w^ii / factorial(ii). -/
def ssHalfstepPoly (nt : ℕ) (dt : ℝ) (betap : ℕ → ℝ) (nb : ℕ) (k : Fin nt) : ℂ :=
  ∑ ii ∈ Finset.range nb,
    -Complex.I * ((betap ii : ℝ) : ℂ) * ((wgrid nt dt k : ℝ) : ℂ) ^ ii / (Nat.factorial ii : ℂ)

/-- State carried across the outer iz loop of _ssprop. -/
structure SsState (nt : ℕ) where
  u0 : Fin nt → ℂ
  u1 : Fin nt → ℂ
  ufft : Fin nt → ℂ
  warned : Bool

/-- State carried across the inner fixed-point loop of _ssprop. -/
structure SsInnerState (nt : ℕ) where
  u1 : Fin nt → ℂ
  ufft : Fin nt → ℂ
  broke : Bool
  warned : Bool

/-- One iteration ii of the inner fixed-point loop of _ssprop.  A python
break is modelled by the broke flag; the trailing warn is guarded by the
source condition ii == maxiter. -/
def ssInnerStep {nt : ℕ} (dz tol gamma : ℝ) (lin : Fin nt → ℂ) (u0 uhalf : Fin nt → ℂ)
    (maxiter : ℕ) (st : SsInnerState nt) (ii : ℕ) : SsInnerState nt :=
  if st.broke then st
  else
    let uv := fun j => uhalf j * Complex.exp (-Complex.I * (gamma : ℂ) *
      (((Complex.normSq (st.u1 j) + Complex.normSq (u0 j)) * dz / 2 : ℝ) : ℂ))
    let ufft2 := fun k => lin k * fft uv k
    let uv2 := ifft ufft2
    if l2norm (fun j => uv2 j - st.u1 j) / l2norm st.u1 < tol then
      ⟨uv2, ufft2, true, st.warned⟩
    else
      ⟨uv2, ufft2, false, st.warned || (ii == maxiter)⟩

/-- One iteration iz of the outer loop of _ssprop. -/
def ssOuterStep {nt : ℕ} (dt dz tol gamma : ℝ) (betap : ℕ → ℝ) (nb : ℕ)
    (alphaV : ℕ → ℝ) (alphaSize nz maxiter : ℕ) (st : SsState nt) (iz : ℕ) : SsState nt :=
  let alphaStep : ℝ := if 1 < nz ∧ alphaSize = nz then -(alphaV iz) / 2 else -(alphaV 0) / 2
  let lin := fun k => Complex.exp (((alphaStep : ℂ) + ssHalfstepPoly nt dt betap nb k) * (dz : ℂ) / 2)
  let uhalf := ifft (fun k => lin k * st.ufft k)
  let inner := (List.range maxiter).foldl
    (ssInnerStep dz tol gamma lin st.u0 uhalf maxiter) ⟨st.u1, st.ufft, false, st.warned⟩
  ⟨inner.u1, inner.u1, inner.ufft, inner.warned⟩

/-- Model of _ssprop (Links/_ssprop.py).  The boolean part of the result
records whether the non-convergence warning was ever emitted; none models
the two fatal entry checks (the evenness assert and the alpha-size check). -/
def ssprop {nt : ℕ} (u0 : Fin nt → ℂ) (dt dz : ℝ) (nz : ℕ) (alphaV : ℕ → ℝ)
    (alphaSize : ℕ) (betap : ℕ → ℝ) (nb : ℕ) (gamma : ℝ) (maxiter : ℕ) (tol : ℝ) :
    Option ((Fin nt → ℂ) × Bool) :=
  if nt % 2 ≠ 0 then none
  else if alphaSize ≠ 1 ∧ alphaSize ≠ nz then none
  else
    let final := (List.range nz).foldl
      (ssOuterStep dt dz tol gamma betap nb alphaV alphaSize nz maxiter)
      ⟨u0, u0, fft u0, false⟩
    some (final.u1, final.warned)

/-- The same link configuration with the span count replaced. -/
def withSpans (L : LinkCfg) (m : ℕ) : LinkCfg :=
  ⟨L.dt, L.dz, L.nz, L.alpha, L.beta2, L.gamma, m, L.postBoost, L.noise,
    L.noiseFigure, L.centerFrequency⟩

/-- The deterministic field part of one span in the noiseless case:
propagation followed, when post_boost is set, by the gain multiplication. -/
def spanField {nt : ℕ} (L : LinkCfg) (D R : ℕ → ℝ) (u : Fin nt → ℂ) : Fin nt → ℂ :=
  let u1 := _DDFssprop nt L.dt L.dz L.nz (alphaLog L) D R u
  if L.postBoost then fun j => u1 j * ((Real.exp (gainDb L * Real.log 10 * 0.05) : ℝ) : ℂ)
  else u1

/-- Concrete configuration used by the C9 instances: gain 10 dB, noise
figure 10 dB, noise on, and a center frequency chosen so that the ASE power
evaluates to exactly 1. -/
def cfg9 : LinkCfg := ⟨1, 1, 1, 10, 1, -1, 1, true, true, 10, (49.5 * Planck)⁻¹⟩

/-- Concrete hidden random state used by the C9 instances: the stream of
draws 0, 1, 2, 3, ... with nothing consumed yet. -/
def rng0 : RngState := ⟨fun k => (k : ℝ), 0⟩

/-- Concrete noiseless configuration used by the C6 witness. -/
def cfgC6 : LinkCfg := ⟨1, 1, 1, 0, 1, -1, 1, false, false, 3, 1⟩

/-- Concrete noiseless configuration with post_boost used by the C10
witness. -/
def cfgC10 : LinkCfg := ⟨1, 1, 1, 0, 1, -1, 1, true, false, 3, 1⟩

/-! ## Lemmas and claim theorems -/

lemma ifft_eq_dftPlus {n : ℕ} (v : Fin n → ℂ) (j : Fin n) :
    ifft v j = ((n : ℂ))⁻¹ * dftPlus v j := rfl

/-- Geometric-sum evaluation of the Fourier kernel: summing the unit root
exp (2 pi I d / n) raised to the k-th power over k below n gives n when n
divides d and zero otherwise. -/
lemma sum_exp_kernel (n : ℕ) (hn : 0 < n) (d : ℤ) :
    ∑ k : Fin n, Complex.exp (2 * (Real.pi : ℂ) * Complex.I * (k : ℕ) * (d : ℂ) / n)
      = if (n : ℤ) ∣ d then (n : ℂ) else 0 := by
  have hnC : (n : ℂ) ≠ 0 := Nat.cast_ne_zero.mpr hn.ne'
  have hpow : ∀ k : ℕ, Complex.exp (2 * (Real.pi : ℂ) * Complex.I * (k : ℂ) * (d : ℂ) / n)
      = Complex.exp (2 * (Real.pi : ℂ) * Complex.I * (d : ℂ) / n) ^ k := by
    intro k
    rw [← Complex.exp_nat_mul]
    congr 1
    ring
  have hsum : ∑ k : Fin n, Complex.exp (2 * (Real.pi : ℂ) * Complex.I * (k : ℕ) * (d : ℂ) / n)
      = ∑ k ∈ Finset.range n, Complex.exp (2 * (Real.pi : ℂ) * Complex.I * (d : ℂ) / n) ^ k := by
    rw [Fin.sum_univ_eq_sum_range
      (fun k : ℕ => Complex.exp (2 * (Real.pi : ℂ) * Complex.I * (k : ℂ) * (d : ℂ) / n)) n]
    exact Finset.sum_congr rfl fun k _ => hpow k
  rw [hsum]
  by_cases hdvd : (n : ℤ) ∣ d
  · obtain ⟨c, hc⟩ := hdvd
    have hz1 : Complex.exp (2 * (Real.pi : ℂ) * Complex.I * (d : ℂ) / n) = 1 := by
      have hdc : (d : ℂ) = (n : ℂ) * (c : ℂ) := by exact_mod_cast congrArg (Int.cast : ℤ → ℂ) hc
      have harg : 2 * (Real.pi : ℂ) * Complex.I * (d : ℂ) / n
          = (c : ℂ) * (2 * (Real.pi : ℂ) * Complex.I) := by
        rw [hdc]
        field_simp
        ring
      rw [harg]
      exact Complex.exp_int_mul_two_pi_mul_I c
    have hdvd : (n : ℤ) ∣ d := ⟨c, hc⟩
    simp [hz1, hdvd]
  · have hz1 : Complex.exp (2 * (Real.pi : ℂ) * Complex.I * (d : ℂ) / n) ≠ 1 := by
      intro h1
      obtain ⟨m, hm⟩ := Complex.exp_eq_one_iff.mp h1
      apply hdvd
      have hfac : (2 * (Real.pi : ℂ) * Complex.I) ≠ 0 := by
        apply mul_ne_zero
        · apply mul_ne_zero two_ne_zero
          exact_mod_cast Real.pi_ne_zero
        · exact Complex.I_ne_zero
      have hdc : (d : ℂ) = (m : ℂ) * n := by
        have h2 : (2 * (Real.pi : ℂ) * Complex.I) * (d : ℂ)
            = (2 * (Real.pi : ℂ) * Complex.I) * ((m : ℂ) * n) := by
          field_simp at hm
          linear_combination hm
        exact mul_left_cancel₀ hfac h2
      have hdInt : d = m * n := by exact_mod_cast hdc
      exact ⟨m, by rw [hdInt]; ring⟩
    have hzn : Complex.exp (2 * (Real.pi : ℂ) * Complex.I * (d : ℂ) / n) ^ n = 1 := by
      rw [← Complex.exp_nat_mul]
      have harg : (n : ℂ) * (2 * (Real.pi : ℂ) * Complex.I * (d : ℂ) / n)
          = (d : ℂ) * (2 * (Real.pi : ℂ) * Complex.I) := by
        field_simp
        ring
      rw [harg]
      exact Complex.exp_int_mul_two_pi_mul_I d
    rw [geom_sum_eq hz1, hzn]
    simp [hdvd]

/-- Divisibility by n of a difference of two indices below n forces equality. -/
lemma fin_sub_dvd_iff (n : ℕ) (a b : Fin n) :
    (n : ℤ) ∣ (((a : ℕ) : ℤ) - ((b : ℕ) : ℤ)) ↔ a = b := by
  constructor
  · rintro ⟨c, hc⟩
    have hn : (0 : ℤ) < n := by exact_mod_cast a.pos
    have ha : (((a : ℕ) : ℤ)) < n := by exact_mod_cast a.isLt
    have hb : (((b : ℕ) : ℤ)) < n := by exact_mod_cast b.isLt
    have ha0 : (0 : ℤ) ≤ ((a : ℕ) : ℤ) := Int.natCast_nonneg _
    have hb0 : (0 : ℤ) ≤ ((b : ℕ) : ℤ) := Int.natCast_nonneg _
    have hclt : c < 1 := by
      have h1 : (n : ℤ) * c < (n : ℤ) * 1 := by rw [← hc]; omega
      exact lt_of_mul_lt_mul_left h1 (by omega)
    have hcgt : -1 < c := by
      have h1 : (n : ℤ) * (-1) < (n : ℤ) * c := by rw [← hc]; omega
      exact lt_of_mul_lt_mul_left h1 (by omega)
    have hc0 : c = 0 := by omega
    rw [hc0, mul_zero] at hc
    have : ((a : ℕ) : ℤ) = ((b : ℕ) : ℤ) := by omega
    exact Fin.ext (by exact_mod_cast this)
  · rintro rfl
    simp

/-- The inverse DFT inverts the DFT (model of ifft after fft). -/
lemma ifft_fft {n : ℕ} (v : Fin n → ℂ) (j : Fin n) : ifft (fft v) j = v j := by
  have hn : 0 < n := j.pos
  have hnC : (n : ℂ) ≠ 0 := Nat.cast_ne_zero.mpr hn.ne'
  unfold ifft fft
  have hexp : ∀ k m : Fin n,
      Complex.exp (-(2 * (Real.pi : ℂ) * Complex.I * (m : ℕ) * (k : ℕ)) / n) *
        Complex.exp (2 * (Real.pi : ℂ) * Complex.I * (j : ℕ) * (k : ℕ) / n)
      = Complex.exp (2 * (Real.pi : ℂ) * Complex.I * (k : ℕ)
          * (((((j : ℕ) : ℤ) - ((m : ℕ) : ℤ)) : ℤ) : ℂ) / n) := by
    intro k m
    rw [← Complex.exp_add]
    congr 1
    push_cast
    ring
  calc ((n : ℂ))⁻¹ * ∑ k : Fin n,
        (∑ m : Fin n, v m * Complex.exp (-(2 * (Real.pi : ℂ) * Complex.I * (m : ℕ) * (k : ℕ)) / n)) *
          Complex.exp (2 * (Real.pi : ℂ) * Complex.I * (j : ℕ) * (k : ℕ) / n)
      = ((n : ℂ))⁻¹ * ∑ k : Fin n, ∑ m : Fin n,
          v m * Complex.exp (-(2 * (Real.pi : ℂ) * Complex.I * (m : ℕ) * (k : ℕ)) / n) *
            Complex.exp (2 * (Real.pi : ℂ) * Complex.I * (j : ℕ) * (k : ℕ) / n) := by
        congr 1
        refine Finset.sum_congr rfl fun k _ => ?_
        rw [Finset.sum_mul]
    _ = ((n : ℂ))⁻¹ * ∑ m : Fin n, ∑ k : Fin n,
          v m * Complex.exp (-(2 * (Real.pi : ℂ) * Complex.I * (m : ℕ) * (k : ℕ)) / n) *
            Complex.exp (2 * (Real.pi : ℂ) * Complex.I * (j : ℕ) * (k : ℕ) / n) := by
        rw [Finset.sum_comm]
    _ = ((n : ℂ))⁻¹ * ∑ m : Fin n, v m * ∑ k : Fin n,
          Complex.exp (2 * (Real.pi : ℂ) * Complex.I * (k : ℕ)
            * (((((j : ℕ) : ℤ) - ((m : ℕ) : ℤ)) : ℤ) : ℂ) / n) := by
        congr 1
        refine Finset.sum_congr rfl fun m _ => ?_
        rw [Finset.mul_sum]
        refine Finset.sum_congr rfl fun k _ => ?_
        rw [mul_assoc, hexp k m]
    _ = ((n : ℂ))⁻¹ * ∑ m : Fin n, v m * (if (n : ℤ) ∣ (((j : ℕ) : ℤ) - ((m : ℕ) : ℤ)) then (n : ℂ) else 0) := by
        congr 1
        refine Finset.sum_congr rfl fun m _ => ?_
        rw [sum_exp_kernel n hn]
    _ = ((n : ℂ))⁻¹ * ∑ m : Fin n, (if j = m then v m * n else 0) := by
        congr 1
        refine Finset.sum_congr rfl fun m _ => ?_
        by_cases h : j = m
        · simp [h]
        · have hnd : ¬ (n : ℤ) ∣ (((j : ℕ) : ℤ) - ((m : ℕ) : ℤ)) := fun hd =>
            h ((fin_sub_dvd_iff n j m).mp hd)
          simp [h, hnd]
    _ = v j := by
        rw [Finset.sum_ite_eq]
        simp [hnC]
        field_simp

/-- Parseval identity for the positive-sign Fourier sum. -/
lemma sum_normSq_dftPlus {n : ℕ} (hn : 0 < n) (v : Fin n → ℂ) :
    ∑ j : Fin n, Complex.normSq (dftPlus v j) = n * ∑ k : Fin n, Complex.normSq (v k) := by
  have hconj : ∀ j : Fin n, (starRingEnd ℂ) (dftPlus v j)
      = ∑ l : Fin n, (starRingEnd ℂ) (v l) *
          Complex.exp (-(2 * (Real.pi : ℂ) * Complex.I * (j : ℕ) * (l : ℕ) / n)) := by
    intro j
    unfold dftPlus
    rw [map_sum]
    refine Finset.sum_congr rfl fun l _ => ?_
    rw [map_mul, ← Complex.exp_conj]
    congr 1
    simp [map_div₀, map_mul, map_ofNat, Complex.conj_I, Complex.conj_ofReal]
    ring_nf
  have hexp : ∀ j k l : Fin n,
      Complex.exp (2 * (Real.pi : ℂ) * Complex.I * (j : ℕ) * (k : ℕ) / n) *
        Complex.exp (-(2 * (Real.pi : ℂ) * Complex.I * (j : ℕ) * (l : ℕ) / n))
      = Complex.exp (2 * (Real.pi : ℂ) * Complex.I * (j : ℕ)
          * (((((k : ℕ) : ℤ) - ((l : ℕ) : ℤ)) : ℤ) : ℂ) / n) := by
    intro j k l
    rw [← Complex.exp_add]
    congr 1
    push_cast
    ring
  have key : ((∑ j : Fin n, Complex.normSq (dftPlus v j) : ℝ) : ℂ)
      = (((n : ℝ) * ∑ k : Fin n, Complex.normSq (v k) : ℝ) : ℂ) := by
    push_cast
    calc (∑ j : Fin n, (Complex.normSq (dftPlus v j) : ℂ))
        = ∑ j : Fin n, dftPlus v j * (starRingEnd ℂ) (dftPlus v j) := by
          refine Finset.sum_congr rfl fun j _ => ?_
          rw [Complex.mul_conj]
      _ = ∑ j : Fin n, ∑ k : Fin n, ∑ l : Fin n,
            v k * (starRingEnd ℂ) (v l) *
              Complex.exp (2 * (Real.pi : ℂ) * Complex.I * (j : ℕ)
                * (((((k : ℕ) : ℤ) - ((l : ℕ) : ℤ)) : ℤ) : ℂ) / n) := by
          refine Finset.sum_congr rfl fun j _ => ?_
          rw [hconj j]
          unfold dftPlus
          rw [Finset.sum_mul_sum]
          refine Finset.sum_congr rfl fun k _ => ?_
          refine Finset.sum_congr rfl fun l _ => ?_
          rw [← hexp j k l]
          ring
      _ = ∑ k : Fin n, ∑ l : Fin n,
            v k * (starRingEnd ℂ) (v l) *
              (if (n : ℤ) ∣ (((k : ℕ) : ℤ) - ((l : ℕ) : ℤ)) then (n : ℂ) else 0) := by
          rw [Finset.sum_comm]
          refine Finset.sum_congr rfl fun k _ => ?_
          rw [Finset.sum_comm]
          refine Finset.sum_congr rfl fun l _ => ?_
          rw [← Finset.mul_sum, sum_exp_kernel n hn]
      _ = ∑ k : Fin n, ∑ l : Fin n, (if k = l then v k * (starRingEnd ℂ) (v l) * n else 0) := by
          refine Finset.sum_congr rfl fun k _ => ?_
          refine Finset.sum_congr rfl fun l _ => ?_
          by_cases h : k = l
          · simp [h]
          · have hnd : ¬ (n : ℤ) ∣ (((k : ℕ) : ℤ) - ((l : ℕ) : ℤ)) := fun hd =>
              h ((fin_sub_dvd_iff n k l).mp hd)
            simp [h, hnd]
      _ = ∑ k : Fin n, v k * (starRingEnd ℂ) (v k) * n := by
          refine Finset.sum_congr rfl fun k _ => ?_
          rw [Finset.sum_ite_eq]
          simp
      _ = (n : ℂ) * ∑ k : Fin n, (Complex.normSq (v k) : ℂ) := by
          rw [Finset.mul_sum]
          refine Finset.sum_congr rfl fun k _ => ?_
          rw [Complex.mul_conj]
          ring
  exact_mod_cast key

/-- The numpy forward DFT is the conjugate of the positive-sign sum of the
conjugated input. -/
lemma fft_eq_conj_dftPlus {n : ℕ} (v : Fin n → ℂ) (k : Fin n) :
    fft v k = (starRingEnd ℂ) (dftPlus (fun j => (starRingEnd ℂ) (v j)) k) := by
  unfold fft dftPlus
  rw [map_sum]
  refine Finset.sum_congr rfl fun j _ => ?_
  rw [map_mul, Complex.conj_conj, ← Complex.exp_conj]
  congr 1
  simp [map_div₀, map_mul, map_ofNat, Complex.conj_I, Complex.conj_ofReal]
  ring_nf

/-- Parseval identity for the numpy forward DFT. -/
lemma sum_normSq_fft {n : ℕ} (hn : 0 < n) (v : Fin n → ℂ) :
    ∑ k : Fin n, Complex.normSq (fft v k) = n * ∑ j : Fin n, Complex.normSq (v j) := by
  calc ∑ k : Fin n, Complex.normSq (fft v k)
      = ∑ k : Fin n, Complex.normSq (dftPlus (fun j => (starRingEnd ℂ) (v j)) k) := by
        refine Finset.sum_congr rfl fun k _ => ?_
        rw [fft_eq_conj_dftPlus, Complex.normSq_conj]
    _ = n * ∑ j : Fin n, Complex.normSq ((starRingEnd ℂ) (v j)) := sum_normSq_dftPlus hn _
    _ = n * ∑ j : Fin n, Complex.normSq (v j) := by
        congr 1
        exact Finset.sum_congr rfl fun j _ => Complex.normSq_conj _

/-- Parseval identity for the numpy inverse DFT. -/
lemma sum_normSq_ifft {n : ℕ} (hn : 0 < n) (v : Fin n → ℂ) :
    ∑ j : Fin n, Complex.normSq (ifft v j) = ((n : ℝ))⁻¹ * ∑ k : Fin n, Complex.normSq (v k) := by
  have hnR : (n : ℝ) ≠ 0 := Nat.cast_ne_zero.mpr hn.ne'
  calc ∑ j : Fin n, Complex.normSq (ifft v j)
      = ∑ j : Fin n, Complex.normSq ((n : ℂ))⁻¹ * Complex.normSq (dftPlus v j) := by
        refine Finset.sum_congr rfl fun j _ => ?_
        rw [ifft_eq_dftPlus, Complex.normSq_mul]
    _ = ((n : ℝ) * (n : ℝ))⁻¹ * ∑ j : Fin n, Complex.normSq (dftPlus v j) := by
        rw [← Finset.mul_sum]
        congr 1
        rw [Complex.normSq_inv, Complex.normSq_natCast]
    _ = ((n : ℝ))⁻¹ * ∑ k : Fin n, Complex.normSq (v k) := by
        rw [sum_normSq_dftPlus hn]
        field_simp
        ring

lemma normSq_exp_I_mul_real (r : ℝ) :
    Complex.normSq (Complex.exp (Complex.I * (r : ℂ))) = 1 := by
  rw [Complex.normSq_eq_abs, Complex.abs_exp]
  have hre : (Complex.I * (r : ℂ)).re = 0 := by simp
  rw [hre, Real.exp_zero, one_pow]

lemma normSq_halfstepOp (nt : ℕ) (dt dz beta : ℝ) (k : Fin nt) :
    Complex.normSq (halfstepOp nt dt dz beta k) = 1 := by
  unfold halfstepOp
  have harg : Complex.I * (beta : ℂ) * ((wgrid nt dt k : ℝ) : ℂ) ^ 2 / 2 * (dz : ℂ) / 2
      = Complex.I * ((beta * (wgrid nt dt k) ^ 2 / 2 * dz / 2 : ℝ) : ℂ) := by
    push_cast
    ring
  rw [harg, normSq_exp_I_mul_real]

lemma normSq_nl_factor (gamma x dz : ℝ) :
    Complex.normSq (Complex.exp (Complex.I * (gamma : ℂ) * ((x * dz : ℝ) : ℂ))) = 1 := by
  have harg : Complex.I * (gamma : ℂ) * ((x * dz : ℝ) : ℂ)
      = Complex.I * ((gamma * (x * dz) : ℝ) : ℂ) := by
    push_cast
    ring
  rw [harg, normSq_exp_I_mul_real]

lemma halfstepOp_beta_zero (nt : ℕ) (dt dz : ℝ) (k : Fin nt) :
    halfstepOp nt dt dz 0 k = 1 := by
  unfold halfstepOp
  norm_num

/-- The filtered transform ifft (h * fft u) preserves the summed squared
modulus for any unimodular multiplier h. -/
lemma sum_normSq_linStep {n : ℕ} (hn : 0 < n) (dt dz beta : ℝ) (u : Fin n → ℂ) :
    ∑ j : Fin n, Complex.normSq (ifft (fun k => halfstepOp n dt dz beta k * fft u k) j)
      = ∑ j : Fin n, Complex.normSq (u j) := by
  have hnR : (n : ℝ) ≠ 0 := Nat.cast_ne_zero.mpr hn.ne'
  rw [sum_normSq_ifft hn]
  have h1 : ∑ k : Fin n, Complex.normSq (halfstepOp n dt dz beta k * fft u k)
      = ∑ k : Fin n, Complex.normSq (fft u k) := by
    refine Finset.sum_congr rfl fun k _ => ?_
    rw [Complex.normSq_mul, normSq_halfstepOp, one_mul]
  rw [h1, sum_normSq_fft hn]
  field_simp

/-- One profile-mode step with alpha = 0 conserves the summed squared
modulus. -/
lemma sum_normSq_ddfStep_alpha_zero {n : ℕ} (dt dz beta gamma : ℝ) (u : Fin n → ℂ) :
    ∑ j : Fin n, Complex.normSq (ddfStep n dt dz 0 beta gamma u j)
      = ∑ j : Fin n, Complex.normSq (u j) := by
  rcases Nat.eq_zero_or_pos n with hn | hn
  · subst hn
    simp
  have hexp0 : ((Real.exp (-((0 : ℝ) / 2) * dz) : ℝ) : ℂ) = 1 := by norm_num
  simp only [ddfStep, hexp0, mul_one]
  rw [sum_normSq_linStep hn]
  have hpoint : ∀ j : Fin n,
      Complex.normSq (ifft (fun k => halfstepOp n dt dz beta k * fft u k) j *
        Complex.exp (Complex.I * (gamma : ℂ) * ((Complex.normSq (u j) * dz : ℝ) : ℂ)))
      = Complex.normSq (ifft (fun k => halfstepOp n dt dz beta k * fft u k) j) := by
    intro j
    rw [Complex.normSq_mul, normSq_nl_factor, mul_one]
  rw [Finset.sum_congr rfl fun j _ => hpoint j, sum_normSq_linStep hn]

lemma sum_normSq_foldl_ddf {n : ℕ} (dt dz : ℝ) (D R : ℕ → ℝ) (l : List ℕ) (u : Fin n → ℂ) :
    ∑ j : Fin n, Complex.normSq
        ((l.foldl (fun v iz => ddfStep n dt dz 0 (D iz) (R iz) v) u) j)
      = ∑ j : Fin n, Complex.normSq (u j) := by
  induction l generalizing u with
  | nil => rfl
  | cons a t ih => rw [List.foldl_cons, ih, sum_normSq_ddfStep_alpha_zero]

/-- With beta = gamma = 0 the whole step is the attenuation factor. -/
lemma ddfStep_zero_coeffs {n : ℕ} (dt dz alpha : ℝ) (u : Fin n → ℂ) :
    ddfStep n dt dz alpha 0 0 u
      = fun j => u j * ((Real.exp (-(alpha / 2) * dz) : ℝ) : ℂ) := by
  funext j
  simp only [ddfStep]
  have hhs : (fun k : Fin n => halfstepOp n dt dz 0 k * fft u k) = fft u := by
    funext k
    rw [halfstepOp_beta_zero, one_mul]
  have huv : (fun j2 : Fin n => ifft (fun k => halfstepOp n dt dz 0 k * fft u k) j2 *
      Complex.exp (Complex.I * ((0 : ℝ) : ℂ) * ((Complex.normSq (u j2) * dz : ℝ) : ℂ))) = u := by
    funext j2
    rw [hhs, ifft_fft]
    norm_num
  rw [huv, hhs, ifft_fft]

lemma specStepNoLoss_zero_coeffs {n : ℕ} (dt dz : ℝ) (u : Fin n → ℂ) :
    specStepNoLoss n dt dz 0 0 u = u := by
  funext j
  simp only [specStepNoLoss]
  have hhs : (fun k : Fin n => halfstepOp n dt dz 0 k * fft u k) = fft u := by
    funext k
    rw [halfstepOp_beta_zero, one_mul]
  have huv : (fun j2 : Fin n => ifft (fun k => halfstepOp n dt dz 0 k * fft u k) j2 *
      Complex.exp (Complex.I * ((0 : ℝ) : ℂ) * ((Complex.normSq (u j2) * dz : ℝ) : ℂ))) = u := by
    funext j2
    rw [hhs, ifft_fft]
    norm_num
  rw [huv, hhs, ifft_fft]

lemma ddf_foldl_zero_coeffs {n : ℕ} (dt dz alpha : ℝ) (D R : ℕ → ℝ) (l : List ℕ)
    (hD : ∀ i ∈ l, D i = 0) (hR : ∀ i ∈ l, R i = 0) (u : Fin n → ℂ) (j : Fin n) :
    (l.foldl (fun v iz => ddfStep n dt dz alpha (D iz) (R iz) v) u) j
      = u j * ((Real.exp (-(alpha / 2) * dz) : ℝ) : ℂ) ^ l.length := by
  induction l generalizing u with
  | nil => simp
  | cons a t ih =>
    rw [List.foldl_cons, hD a (by simp), hR a (by simp), ddfStep_zero_coeffs,
      ih (fun i hi => hD i (by simp [hi])) (fun i hi => hR i (by simp [hi]))]
    simp [List.length_cons]
    ring

/-- Claim C5: for alpha = 0, every even-length input field, every dt > 0 and
arbitrary per-step coefficient arrays D and R, the profile-mode integrator
_DDFssprop conserves the energy sum of |q|^2 times dt exactly, each step
being built from unimodular frequency multipliers, DFT/IDFT pairs and
unimodular pointwise rotations. -/
theorem C5_energy_conservation {nt : ℕ} (dt dz : ℝ) (nz : ℕ) (alpha : ℝ) (D R : ℕ → ℝ)
    (u0 : Fin nt → ℂ) (halpha : alpha = 0) (heven : nt % 2 = 0) (hdt : 0 < dt) :
    energy dt (_DDFssprop nt dt dz nz alpha D R u0) = energy dt u0 := by
  subst halpha
  unfold energy _DDFssprop
  rw [sum_normSq_foldl_ddf]

/-- Witness for C5 at a concrete even-length input with the normalized
spec scenario coefficients beta2 = -1, gamma = 1, dz = 1/100. -/
theorem C5_energy_conservation_witness :
    (0 : ℝ) < 1 ∧ 2 % 2 = 0 ∧
      energy 1 (_DDFssprop 2 1 (1 / 100) 1 0 (fun _ => -1) (fun _ => 1) (fun _ => 1))
        = energy 1 (fun _ : Fin 2 => (1 : ℂ)) :=
  ⟨by norm_num, rfl,
    C5_energy_conservation 1 (1 / 100) 1 0 (fun _ => -1) (fun _ => 1) (fun _ => 1)
      rfl rfl (by norm_num)⟩

/-- Claim C7: with zero per-step dispersion and nonlinearity coefficients and
constant scalar alpha > 0, the integrator is a pure pointwise exponential
attenuation: each output sample is the input sample times
exp (-(alpha dz nz)/2), so each squared modulus decays by exactly
exp (-(alpha dz nz)). -/
theorem C7_pure_attenuation {nt : ℕ} (dt dz alpha : ℝ) (nz : ℕ) (D R : ℕ → ℝ)
    (u0 : Fin nt → ℂ) (j : Fin nt) (heven : nt % 2 = 0) (halpha : 0 < alpha)
    (hD : ∀ i, D i = 0) (hR : ∀ i, R i = 0) :
    _DDFssprop nt dt dz nz alpha D R u0 j
        = u0 j * ((Real.exp (-(alpha * dz * (nz : ℝ)) / 2) : ℝ) : ℂ)
      ∧ Complex.normSq (_DDFssprop nt dt dz nz alpha D R u0 j)
        = Complex.normSq (u0 j) * Real.exp (-(alpha * dz * (nz : ℝ))) := by
  have h1 : _DDFssprop nt dt dz nz alpha D R u0 j
      = u0 j * ((Real.exp (-(alpha / 2) * dz) : ℝ) : ℂ) ^ nz := by
    unfold _DDFssprop
    rw [ddf_foldl_zero_coeffs dt dz alpha D R _ (fun i _ => hD i) (fun i _ => hR i) u0 j,
      List.length_range]
  have hpow : ((Real.exp (-(alpha / 2) * dz) : ℝ) : ℂ) ^ nz
      = ((Real.exp (-(alpha * dz * (nz : ℝ)) / 2) : ℝ) : ℂ) := by
    rw [← Complex.ofReal_pow, ← Real.exp_nat_mul]
    congr 1
    congr 1
    ring
  constructor
  · rw [h1, hpow]
  · rw [h1, hpow, Complex.normSq_mul, Complex.normSq_ofReal, ← Real.exp_add]
    congr 2
    ring

/-- Witness for C7 at a concrete even-length input. -/
theorem C7_pure_attenuation_witness :
    (0 : ℝ) < 1 ∧ 2 % 2 = 0 ∧
      _DDFssprop 2 1 1 1 1 (fun _ => 0) (fun _ => 0) (fun _ => 1) 0
        = (fun _ : Fin 2 => (1 : ℂ)) 0 * ((Real.exp (-(1 * 1 * ((1 : ℕ) : ℝ)) / 2) : ℝ) : ℂ) :=
  ⟨by norm_num, rfl,
    (C7_pure_attenuation 1 1 1 1 (fun _ => 0) (fun _ => 0) (fun _ => 1) 0
      rfl (by norm_num) (fun _ => rfl) (fun _ => rfl)).1⟩

/-- Claim C2 (amended): one profile-mode step substitutes the per-step
coefficients beta, gamma into the symmetric split step AND multiplies by the
per-step attenuation factor exp (-(alpha/2) dz); it differs from the
loss-free composition asserted by the claim by exactly this factor. -/
theorem C2_step_attenuation {nt : ℕ} (dt dz alpha beta gamma : ℝ) (u : Fin nt → ℂ) :
    ddfStep nt dt dz alpha beta gamma u
      = fun j => specStepNoLoss nt dt dz beta gamma u j *
          ((Real.exp (-(alpha / 2) * dz) : ℝ) : ℂ) := rfl

/-- Claim C2 counterexample: for the even-length constant-one input, alpha =
2, dz = 1, one step and zero profile coefficients, the integrator output is
exp (-1) while the claimed loss-free composition gives 1, so one
profile-mode step does not equal the composition without the attenuation
factor. -/
theorem C2_counterexample :
    _DDFssprop 2 1 1 1 2 (fun _ => 0) (fun _ => 0) (fun _ => 1) 0
        = ((Real.exp (-1) : ℝ) : ℂ)
      ∧ specStepNoLoss 2 1 1 0 0 (fun _ => 1) 0 = 1
      ∧ _DDFssprop 2 1 1 1 2 (fun _ => 0) (fun _ => 0) (fun _ => 1) 0
        ≠ specStepNoLoss 2 1 1 0 0 (fun _ => 1) 0 := by
  have h1 : _DDFssprop 2 1 1 1 2 (fun _ => 0) (fun _ => 0) (fun _ => 1) 0
      = ((Real.exp (-1) : ℝ) : ℂ) := by
    unfold _DDFssprop
    have hr : List.range 1 = [0] := rfl
    rw [hr, List.foldl_cons, List.foldl_nil, ddfStep_zero_coeffs]
    norm_num
  have h2 : specStepNoLoss 2 1 1 0 0 (fun _ => 1) 0 = 1 := by
    rw [specStepNoLoss_zero_coeffs]
  refine ⟨h1, h2, ?_⟩
  rw [h1, h2]
  intro hcontra
  have hexp : Real.exp (-1) = 1 := by exact_mod_cast hcontra
  rw [Real.exp_eq_one_iff] at hexp
  norm_num at hexp

lemma kappa_pos : 0 < kappa := by
  unfold kappa lambda0 clight
  positivity

lemma R0_pos (beta20 : ℝ) : 0 < R0 beta20 := by
  unfold R0 BETA20
  have hk : 0 < kappa := kappa_pos
  positivity

lemma acoef_pos {beta20 : ℝ} (hb : beta20 ≠ 0) : 0 < acoef beta20 := by
  unfold acoef BETA20
  have h1 : 0 < |beta20| := abs_pos.mpr hb
  have h2 : 0 < R0 beta20 := R0_pos beta20
  positivity

/-- Any real root of the solver cubic lies strictly above 5/2. -/
lemma radCubic_root_gt {alpha beta20 dz : ℝ} {i : ℕ} {x : ℝ} (hb : beta20 ≠ 0)
    (hroot : radCubic alpha beta20 dz i x = 0) : 5 / 2 < x := by
  have hk : 0 < kappa := kappa_pos
  have ha : 0 < acoef beta20 := acoef_pos hb
  have hE : 0 < Real.exp (-2 * (alpha / 2) * dz * (i : ℝ)) := Real.exp_pos _
  by_contra hle
  push_neg at hle
  unfold radCubic at hroot
  have hxx : x ^ 2 * (x - 5 / 2) ≤ 0 :=
    mul_nonpos_of_nonneg_of_nonpos (sq_nonneg x) (by linarith)
  have h8 : 8 * kappa * (x ^ 2 * (x - 5 / 2)) ≤ 0 := by
    have h80 : (0 : ℝ) ≤ 8 * kappa := by positivity
    exact mul_nonpos_of_nonneg_of_nonpos h80 hxx
  nlinarith [mul_pos ha hE]

/-- The solver cubic has at most one real root. -/
lemma radCubic_root_unique {alpha beta20 dz : ℝ} {i : ℕ} {x y : ℝ} (hb : beta20 ≠ 0)
    (hx : radCubic alpha beta20 dz i x = 0) (hy : radCubic alpha beta20 dz i y = 0) :
    x = y := by
  have hk : 0 < kappa := kappa_pos
  have hxg := radCubic_root_gt hb hx
  have hyg := radCubic_root_gt hb hy
  unfold radCubic at hx hy
  have hdiff : 8 * kappa * (x ^ 3 - y ^ 3) - 20 * kappa * (x ^ 2 - y ^ 2) = 0 := by linarith
  by_contra hne
  have hfac : (x - y) * (8 * kappa * (x ^ 2 + x * y + y ^ 2) - 20 * kappa * (x + y)) = 0 := by
    linear_combination hdiff
  have hbr : 0 < 8 * kappa * (x ^ 2 + x * y + y ^ 2) - 20 * kappa * (x + y) := by
    nlinarith [mul_pos hk (mul_pos (show (0 : ℝ) < x by linarith) (show (0 : ℝ) < 2 * x - 5 by linarith)),
      mul_pos hk (mul_pos (show (0 : ℝ) < y by linarith) (show (0 : ℝ) < 2 * y - 5 by linarith)),
      mul_pos hk (mul_pos (show (0 : ℝ) < x by linarith) (show (0 : ℝ) < y by linarith))]
  rcases mul_eq_zero.mp hfac with h | h
  · exact hne (by linarith)
  · linarith

/-- R0 is a root of the step-0 cubic. -/
lemma radCubic_R0_root (alpha beta20 dz : ℝ) :
    radCubic alpha beta20 dz 0 (R0 beta20) = 0 := by
  have hk : kappa ≠ 0 := kappa_pos.ne'
  unfold radCubic acoef R0
  have hE : Real.exp (-2 * (alpha / 2) * dz * ((0 : ℕ) : ℝ)) = 1 := by
    norm_num
  rw [hE]
  field_simp
  ring

/-- Shared endpoint computation: any radius profile satisfying the root
equations starts at R0, and the output profiles evaluate at index 0 to
-|beta20| and |gamma0|. -/
lemma profile_endpoint_values (alpha beta20 gamma0 dz : ℝ) (nz : ℕ) (Rad : ℕ → ℝ)
    (hnz : 0 < nz) (hb : beta20 ≠ 0) (hprof : IsRadProfile alpha beta20 dz nz Rad) :
    BETA2prof Rad 0 = -|beta20| ∧ GAMMAprof beta20 gamma0 Rad 0 = |gamma0| := by
  have hroot0 : radCubic alpha beta20 dz 0 (Rad 0) = 0 := hprof 0 hnz
  have hRad0 : Rad 0 = R0 beta20 :=
    radCubic_root_unique hb hroot0 (radCubic_R0_root alpha beta20 dz)
  have hk : kappa ≠ 0 := kappa_pos.ne'
  constructor
  · unfold BETA2prof
    rw [hRad0]
    unfold R0 BETA20
    field_simp
    ring
  · unfold GAMMAprof n2coef GAMMA0
    rw [hRad0]
    have hl : lambda0 ≠ 0 := by unfold lambda0; norm_num
    have hpi : Real.pi ≠ 0 := Real.pi_ne_zero
    have hR : R0 beta20 ≠ 0 := (R0_pos beta20).ne'
    have h6 : (1e-6 : ℝ) ≠ 0 := by norm_num
    field_simp

/-- The concrete radius profile of the C1 instances: alpha = 0, beta20 = 1,
gamma0 = -1, dz = 1, nz = 1, with the constant radius R0 1, which solves the
single root equation. -/
lemma isRadProfile_C1_instance : IsRadProfile 0 1 1 1 (fun _ => R0 1) := by
  intro i hi
  have h0 : i = 0 := by omega
  subst h0
  exact radCubic_R0_root 0 1 1

/-- Claim C1 (amended): for every valid input with beta2_0 nonzero, a radius
profile solving the cubic root equations yields BETA2[0] = -|beta2_0| and
GAMMA[0] = |gamma_0|; the solver reproduces the endpoint inputs only up to
taking absolute values and negating the dispersion. -/
theorem C1_profile_endpoints (alpha beta20 gamma0 dz : ℝ) (nz : ℕ) (Rad : ℕ → ℝ)
    (hnz : 0 < nz) (hb : beta20 ≠ 0) (hprof : IsRadProfile alpha beta20 dz nz Rad) :
    BETA2prof Rad 0 = -|beta20| ∧ GAMMAprof beta20 gamma0 Rad 0 = |gamma0| :=
  profile_endpoint_values alpha beta20 gamma0 dz nz Rad hnz hb hprof

/-- Witness for the amended C1 at the concrete instance. -/
theorem C1_profile_endpoints_witness :
    0 < 1 ∧ (1 : ℝ) ≠ 0 ∧ IsRadProfile 0 1 1 1 (fun _ => R0 1) ∧
      BETA2prof (fun _ => R0 1) 0 = -|(1 : ℝ)| ∧
      GAMMAprof 1 (-1) (fun _ => R0 1) 0 = |(-1 : ℝ)| :=
  ⟨Nat.one_pos, by norm_num, isRadProfile_C1_instance,
    C1_profile_endpoints 0 1 (-1) 1 1 (fun _ => R0 1) Nat.one_pos (by norm_num)
      isRadProfile_C1_instance⟩

/-- Claim C1 counterexample: at the valid input alpha = 0, beta2_0 = 1,
gamma_0 = -1, dz = 1, nz = 1 the solver profile (with its radius solving the
cubic) has BETA2[0] = -1 and GAMMA[0] = 1, which differ from the inputs
beta2_0 = 1 and gamma_0 = -1 that the claim says are reproduced. -/
theorem C1_counterexample :
    IsRadProfile 0 1 1 1 (fun _ => R0 1)
      ∧ BETA2prof (fun _ => R0 1) 0 = -1
      ∧ GAMMAprof 1 (-1) (fun _ => R0 1) 0 = 1
      ∧ BETA2prof (fun _ => R0 1) 0 ≠ (1 : ℝ)
      ∧ GAMMAprof 1 (-1) (fun _ => R0 1) 0 ≠ (-1 : ℝ) := by
  have h := profile_endpoint_values 0 1 (-1) 1 1 (fun _ => R0 1) Nat.one_pos (by norm_num)
    isRadProfile_C1_instance
  have hB : BETA2prof (fun _ => R0 1) 0 = -1 := by
    rw [h.1]
    norm_num
  have hG : GAMMAprof 1 (-1) (fun _ => R0 1) 0 = 1 := by
    rw [h.2]
    norm_num
  exact ⟨isRadProfile_C1_instance, hB, hG, by rw [hB]; norm_num, by rw [hG]; norm_num⟩

lemma spanLoopEvents_scalar_snd (postBoost : Bool) (i r : ℕ) :
    (spanLoopEvents postBoost 1 i r).2 = none := by
  induction r generalizing i with
  | zero => cases postBoost <;> rfl
  | succ r ih =>
    unfold spanLoopEvents
    cases postBoost with
    | false => simpa using ih (i + 1)
    | true => simpa using ih (i + 1)

/-- Claim C4 shows a dead warning; claim C3 is the analogous dead error
raise.  At the spec scenario (alpha vector of length 3, nz = 10, post_boost
on, one span) the transmit call terminates inside Get_Beta_Gamma_Profile:
the first np.roots call raises on the ragged coefficient list, before any
propagation, so no field is computed and the error raised is NOT the
dedicated boost configuration error.  Moreover that dedicated raise is
unreachable for every configuration with nz > 0: scalar alpha passes its
check, and vector alpha crashes in the profile solver first. -/
theorem C3_config_error_unreachable :
    transmitEvents 1 true 3 10 = ([TransmitEv.rootsEv 0], some TransmitErr.numpyRootsError)
      ∧ (∀ e ∈ (transmitEvents 1 true 3 10).1, isPropagateEv e = false)
      ∧ (∀ nSpans : ℕ, ∀ postBoost : Bool, ∀ alphaSize nz : ℕ, 0 < nz →
          (transmitEvents nSpans postBoost alphaSize nz).2 ≠ some TransmitErr.boostConfigError) := by
  refine ⟨rfl, by decide, ?_⟩
  intro nSpans postBoost alphaSize nz hnz
  unfold transmitEvents
  by_cases hs : alphaSize ≠ 1
  · have hp : (profileEvents alphaSize nz).2 = some TransmitErr.numpyRootsError := by
      unfold profileEvents
      rw [if_pos hnz, if_pos hs]
    simp only [hp]
    intro h
    exact absurd (Option.some_inj.mp h) (by decide)
  · push_neg at hs
    subst hs
    have hp : (profileEvents 1 nz).2 = none := by
      unfold profileEvents
      rw [if_pos hnz]
      simp
    simp only [hp]
    by_cases h1 : nSpans = 1
    · subst h1
      cases postBoost <;> simp
    · rw [if_neg h1]
      rw [spanLoopEvents_scalar_snd]
      simp

/-- Witness for the quantified part of the C3 theorem at the concrete
scenario: with nz = 10 > 0 the dedicated configuration error is not the
raised error. -/
theorem C3_config_error_unreachable_witness :
    0 < 10 ∧
      (transmitEvents 1 true 3 10).2 ≠ some TransmitErr.boostConfigError :=
  ⟨by norm_num,
    C3_config_error_unreachable.2.2 1 true 3 10 (by norm_num)⟩

lemma ssInnerStep_warned {nt : ℕ} (dz tol gamma : ℝ) (lin : Fin nt → ℂ)
    (u0 uhalf : Fin nt → ℂ) (maxiter : ℕ) (st : SsInnerState nt) (ii : ℕ)
    (hii : ii < maxiter) :
    (ssInnerStep dz tol gamma lin u0 uhalf maxiter st ii).warned = st.warned := by
  unfold ssInnerStep
  have hbeq : (ii == maxiter) = false := by
    simp [Nat.ne_of_lt hii]
  split
  · rfl
  · dsimp only
    split
    · rfl
    · simp [hbeq]

lemma ssInner_foldl_warned {nt : ℕ} (dz tol gamma : ℝ) (lin : Fin nt → ℂ)
    (u0 uhalf : Fin nt → ℂ) (maxiter : ℕ) (l : List ℕ) (hl : ∀ x ∈ l, x < maxiter)
    (st : SsInnerState nt) :
    (l.foldl (ssInnerStep dz tol gamma lin u0 uhalf maxiter) st).warned = st.warned := by
  induction l generalizing st with
  | nil => rfl
  | cons a t ih =>
    rw [List.foldl_cons, ih (fun x hx => hl x (by simp [hx])),
      ssInnerStep_warned dz tol gamma lin u0 uhalf maxiter st a (hl a (by simp))]

lemma ssOuterStep_warned {nt : ℕ} (dt dz tol gamma : ℝ) (betap : ℕ → ℝ) (nb : ℕ)
    (alphaV : ℕ → ℝ) (alphaSize nz maxiter : ℕ) (st : SsState nt) (iz : ℕ) :
    (ssOuterStep dt dz tol gamma betap nb alphaV alphaSize nz maxiter st iz).warned
      = st.warned := by
  unfold ssOuterStep
  exact ssInner_foldl_warned dz tol gamma _ st.u0 _ maxiter (List.range maxiter)
    (fun x hx => List.mem_range.mp hx) _

lemma ssOuter_foldl_warned {nt : ℕ} (dt dz tol gamma : ℝ) (betap : ℕ → ℝ) (nb : ℕ)
    (alphaV : ℕ → ℝ) (alphaSize nz maxiter : ℕ) (l : List ℕ) (st : SsState nt) :
    (l.foldl (ssOuterStep dt dz tol gamma betap nb alphaV alphaSize nz maxiter) st).warned
      = st.warned := by
  induction l generalizing st with
  | nil => rfl
  | cons a t ih =>
    rw [List.foldl_cons, ih, ssOuterStep_warned]

/-- Claim C4: in the code the non-convergence warning is unreachable.  For
every input accepted by the entry checks, _ssprop returns a field and a
warning flag that is always false, because the guard ii == maxiter can never
hold while ii ranges over 0..maxiter-1.  In particular the warning is not
emitted even on inputs whose fixed-point iterates never meet the tolerance
(for example tol = 0, where the strict comparison never succeeds). -/
theorem C4_warning_never_emitted {nt : ℕ} (u0 : Fin nt → ℂ) (dt dz : ℝ) (nz : ℕ)
    (alphaV : ℕ → ℝ) (alphaSize : ℕ) (betap : ℕ → ℝ) (nb : ℕ) (gamma : ℝ)
    (maxiter : ℕ) (tol : ℝ) (heven : nt % 2 = 0) (hsize : alphaSize = 1 ∨ alphaSize = nz) :
    (ssprop u0 dt dz nz alphaV alphaSize betap nb gamma maxiter tol).map Prod.snd
      = some false := by
  unfold ssprop
  rw [if_neg (by omega), if_neg (by tauto)]
  have hw := ssOuter_foldl_warned dt dz tol gamma betap nb alphaV alphaSize nz maxiter
    (List.range nz) ⟨u0, u0, fft u0, false⟩
  simp [hw]

/-- Witness for C4 at a concrete even-length input with tol = 0 (an input on
which the iteration never meets the tolerance). -/
theorem C4_warning_never_emitted_witness :
    2 % 2 = 0 ∧ ((1 : ℕ) = 1 ∨ (1 : ℕ) = 1) ∧
      (ssprop (fun _ : Fin 2 => (1 : ℂ)) 1 1 1 (fun _ => 0) 1 (fun _ => 0) 1 0 4 0).map
          Prod.snd = some false :=
  ⟨rfl, Or.inl rfl,
    C4_warning_never_emitted (fun _ : Fin 2 => (1 : ℂ)) 1 1 1 (fun _ => 0) 1 (fun _ => 0)
      1 0 4 0 rfl (Or.inl rfl)⟩

lemma ASE_noise_noiseless (L : LinkCfg) (hnoise : L.noise = false) (n : ℕ) (s : RngState) :
    ASE_noise L n s = some (fun _ => 0, ⟨s.stream, s.offset + n + n⟩) := by
  unfold ASE_noise randn
  rw [hnoise]
  have hp : ASE_noise_power false (gainDb L) L.noiseFigure L.centerFrequency = some 0 := rfl
  rw [hp]
  have hc : Real.sqrt ((0 : ℝ) / L.dt) = 0 := by
    rw [zero_div, Real.sqrt_zero]
  simp [hc]

lemma spanOp_noiseless {nt : ℕ} (L : LinkCfg) (D R : ℕ → ℝ) (hnoise : L.noise = false)
    (u : Fin nt → ℂ) (s : RngState) :
    ∃ s2, spanOp L D R (u, s) = some (spanField L D R u, s2) := by
  unfold spanOp spanField
  by_cases hb : L.postBoost
  · refine ⟨⟨s.stream, s.offset + nt + nt⟩, ?_⟩
    rw [hb]
    simp only [if_true]
    rw [ASE_noise_noiseless L hnoise nt s]
    simp
  · exact ⟨s, by simp [hb]⟩

lemma foldl_bind_span_noiseless {nt : ℕ} (L : LinkCfg) (D R : ℕ → ℝ)
    (hnoise : L.noise = false) (l : List ℕ) (u : Fin nt → ℂ) (s : RngState) :
    ∃ st, l.foldl (fun acc _ => acc.bind (spanOp L D R)) (some (u, s))
      = some (l.foldl (fun v _ => spanField L D R v) u, st) := by
  induction l generalizing u s with
  | nil => exact ⟨s, rfl⟩
  | cons a t ih =>
    obtain ⟨sa, ha⟩ := spanOp_noiseless L D R hnoise u s
    obtain ⟨st, hst⟩ := ih (spanField L D R u) sa
    refine ⟨st, ?_⟩
    simp only [List.foldl_cons, Option.some_bind, ha]
    exact hst

lemma transmit_noiseless {nt : ℕ} (L : LinkCfg) (D R : ℕ → ℝ) (hnoise : L.noise = false)
    (u : Fin nt → ℂ) (s : RngState) :
    ∃ st, transmit L D R u s
      = some ((List.range L.nSpans).foldl (fun v _ => spanField L D R v) u, st) := by
  unfold transmit
  by_cases h1 : L.nSpans = 1
  · rw [if_pos h1, h1]
    have hr : List.range 1 = [0] := rfl
    rw [hr, List.foldl_cons, List.foldl_nil]
    exact spanOp_noiseless L D R hnoise u s
  · rw [if_neg h1]
    exact foldl_bind_span_noiseless L D R hnoise (List.range L.nSpans) u s

/-- Claim C6: in the noiseless case a link with n_spans = 2 produces exactly
the same output field as applying the corresponding single-span link twice
in sequence; the dedicated n_spans == 1 branch of transmit iterated twice
coincides with the span loop run for two spans, for any random states. -/
theorem C6_two_spans_eq_twice_one {nt : ℕ} (L : LinkCfg) (D R : ℕ → ℝ)
    (hnoise : L.noise = false) (u : Fin nt → ℂ) (s s1 s2 : RngState) :
    (transmit (withSpans L 2) D R u s).map Prod.fst
      = ((transmit (withSpans L 1) D R u s1).bind
          (fun p => transmit (withSpans L 1) D R p.1 s2)).map Prod.fst := by
  obtain ⟨sa, ha⟩ := transmit_noiseless (withSpans L 2) D R hnoise u s
  obtain ⟨sb, hb⟩ := transmit_noiseless (withSpans L 1) D R hnoise u s1
  rw [ha, hb]
  simp only [Option.some_bind]
  obtain ⟨sc, hc⟩ := transmit_noiseless (withSpans L 1) D R hnoise
    ((List.range (withSpans L 1).nSpans).foldl (fun v _ => spanField (withSpans L 1) D R v) u) s2
  rw [hc]
  rfl

/-- Witness for C6 at a concrete noiseless configuration. -/
theorem C6_two_spans_eq_twice_one_witness :
    cfgC6.noise = false ∧
      (transmit (withSpans cfgC6 2) (fun _ => 0) (fun _ => 0) (fun _ : Fin 2 => 1) rng0).map
          Prod.fst
        = ((transmit (withSpans cfgC6 1) (fun _ => 0) (fun _ => 0) (fun _ : Fin 2 => 1)
              rng0).bind
            (fun p => transmit (withSpans cfgC6 1) (fun _ => 0) (fun _ => 0) p.1 rng0)).map
            Prod.fst :=
  ⟨rfl, C6_two_spans_eq_twice_one cfgC6 (fun _ => 0) (fun _ => 0) rfl
    (fun _ : Fin 2 => 1) rng0 rng0 rng0⟩

/-- Claim C10: for a link with noise = false the generated noise vector is
identically zero (the ASE power is 0, so the amplitude scale sqrt(0/dt)
vanishes), and transmit is a deterministic function of its input field even
with post_boost enabled: the field output does not depend on the random
state. -/
theorem C10_noiseless_deterministic {nt : ℕ} (L : LinkCfg) (D R : ℕ → ℝ)
    (hnoise : L.noise = false) (u : Fin nt → ℂ) (s t : RngState) :
    (ASE_noise L nt s).map Prod.fst = some (fun _ => 0)
      ∧ (transmit L D R u s).map Prod.fst = (transmit L D R u t).map Prod.fst := by
  constructor
  · rw [ASE_noise_noiseless L hnoise nt s]
    rfl
  · obtain ⟨sa, ha⟩ := transmit_noiseless L D R hnoise u s
    obtain ⟨sb, hb⟩ := transmit_noiseless L D R hnoise u t
    rw [ha, hb]
    rfl

/-- Witness for C10 at a concrete noiseless post_boost configuration and two
different random states. -/
theorem C10_noiseless_deterministic_witness :
    cfgC10.noise = false ∧
      (transmit cfgC10 (fun _ => 0) (fun _ => 0) (fun _ : Fin 2 => 1) rng0).map Prod.fst
        = (transmit cfgC10 (fun _ => 0) (fun _ => 0) (fun _ : Fin 2 => 1)
            ⟨fun k => (k : ℝ) + 5, 7⟩).map Prod.fst :=
  ⟨rfl, (C10_noiseless_deterministic cfgC10 (fun _ => 0) (fun _ => 0) rfl
    (fun _ : Fin 2 => 1) rng0 ⟨fun k => (k : ℝ) + 5, 7⟩).2⟩

/-- Claim C8 counterexample: at gain 0 dB (G = 1; this arises for any
lossless span, alpha = 0, with noise enabled) the spontaneous-emission
factor divides by zero: the code raises ZeroDivisionError instead of
returning the claimed clamped non-negative value, modelled by none, so no
power value is returned at all. -/
theorem C8_counterexample :
    ASE_noise_power true 0 3 (1931 * 10 ^ 8) = none
      ∧ ∀ p : ℝ, ASE_noise_power true 0 3 (1931 * 10 ^ 8) ≠ some p := by
  have hz : ((0 : ℝ) / 10 : ℝ) = 0 := by norm_num
  have hG : ((10 : ℝ) ^ ((0 : ℝ) / 10 : ℝ)) = 1 := by
    rw [hz, Real.rpow_zero]
  have hmain : ASE_noise_power true 0 3 (1931 * 10 ^ 8) = none := by
    unfold ASE_noise_power
    simp [hG]
  exact ⟨hmain, fun p => by rw [hmain]; exact fun h => Option.noConfusion h⟩

/-- Claim C8 (amended): with noise enabled and nonzero gain (so G differs
from 1) the ASE power computation returns exactly
max 0 (n_sp Planck f (G - 1)) with G = 10^(gain/10), Fn = 10^(nf/10) and
n_sp = (G Fn - 1)/2/(G - 1), and every returned power is non-negative; at
G = 1 the computation instead divides by zero. -/
theorem C8_ase_power_formula (gain nf fc : ℝ) (hg : gain ≠ 0) :
    ASE_noise_power true gain nf fc
        = some (max 0 (((10 : ℝ) ^ (gain / 10 : ℝ) * (10 : ℝ) ^ (nf / 10 : ℝ) - 1) / 2 /
            ((10 : ℝ) ^ (gain / 10 : ℝ) - 1) * Planck * fc *
            ((10 : ℝ) ^ (gain / 10 : ℝ) - 1)))
      ∧ ∀ p : ℝ, ASE_noise_power true gain nf fc = some p → 0 ≤ p := by
  have h10 : (1 : ℝ) < 10 := by norm_num
  have hG1 : (10 : ℝ) ^ (gain / 10 : ℝ) ≠ 1 := by
    intro h
    apply hg
    rcases lt_trichotomy (gain / 10) 0 with hlt | heq | hgt
    · have hmono : (10 : ℝ) ^ (gain / 10 : ℝ) < (10 : ℝ) ^ (0 : ℝ) :=
        (Real.rpow_lt_rpow_left_iff h10).mpr hlt
      rw [Real.rpow_zero, h] at hmono
      exact absurd hmono (lt_irrefl 1)
    · linarith [heq]
    · have hmono : (10 : ℝ) ^ (0 : ℝ) < (10 : ℝ) ^ (gain / 10 : ℝ) :=
        (Real.rpow_lt_rpow_left_iff h10).mpr hgt
      rw [Real.rpow_zero, h] at hmono
      exact absurd hmono (lt_irrefl 1)
  have hsub : (10 : ℝ) ^ (gain / 10 : ℝ) - 1 ≠ 0 := sub_ne_zero.mpr hG1
  have hmain : ASE_noise_power true gain nf fc
      = some (max 0 (((10 : ℝ) ^ (gain / 10 : ℝ) * (10 : ℝ) ^ (nf / 10 : ℝ) - 1) / 2 /
          ((10 : ℝ) ^ (gain / 10 : ℝ) - 1) * Planck * fc *
          ((10 : ℝ) ^ (gain / 10 : ℝ) - 1))) := by
    unfold ASE_noise_power
    simp [hsub]
  refine ⟨hmain, fun p hp => ?_⟩
  rw [hmain] at hp
  have hpe : max 0 (((10 : ℝ) ^ (gain / 10 : ℝ) * (10 : ℝ) ^ (nf / 10 : ℝ) - 1) / 2 /
      ((10 : ℝ) ^ (gain / 10 : ℝ) - 1) * Planck * fc *
      ((10 : ℝ) ^ (gain / 10 : ℝ) - 1)) = p := Option.some_inj.mp hp
  rw [← hpe]
  exact le_max_left 0 _

/-- Witness for the amended C8 at gain 10 dB, noise figure 3 dB. -/
theorem C8_ase_power_formula_witness :
    (10 : ℝ) ≠ 0 ∧ ∀ p : ℝ, ASE_noise_power true 10 3 1 = some p → 0 ≤ p :=
  ⟨by norm_num, (C8_ase_power_formula 10 3 1 (by norm_num)).2⟩

lemma cfg9_power :
    ASE_noise_power cfg9.noise (gainDb cfg9) cfg9.noiseFigure cfg9.centerFrequency
      = some 1 := by
  have hgain : gainDb cfg9 = 10 := by
    unfold gainDb cfg9
    norm_num
  have hone : ((10 : ℝ) / 10 : ℝ) = 1 := by norm_num
  have hG : ((10 : ℝ) ^ ((10 : ℝ) / 10 : ℝ)) = 10 := by
    rw [hone, Real.rpow_one]
  have hP : Planck ≠ 0 := by
    unfold Planck
    norm_num
  have hnoiseFlag : cfg9.noise = true := rfl
  have hnf : cfg9.noiseFigure = 10 := rfl
  have hfc : cfg9.centerFrequency = (49.5 * Planck)⁻¹ := rfl
  rw [hgain, hnoiseFlag, hnf, hfc]
  have hval : ((10 : ℝ) ^ ((10 : ℝ) / 10 : ℝ) * (10 : ℝ) ^ ((10 : ℝ) / 10 : ℝ) - 1) / 2 /
      ((10 : ℝ) ^ ((10 : ℝ) / 10 : ℝ) - 1) * Planck * (49.5 * Planck)⁻¹ *
      ((10 : ℝ) ^ ((10 : ℝ) / 10 : ℝ) - 1) = 1 := by
    rw [hG]
    field_simp
    ring
  have hsub : (10 : ℝ) ^ ((10 : ℝ) / 10 : ℝ) - 1 ≠ 0 := by
    rw [hG]
    norm_num
  simp only [ASE_noise_power, Bool.true_eq_false, if_false]
  rw [if_neg hsub, hval]
  rw [max_eq_right (by norm_num : (0 : ℝ) ≤ 1)]

/-- Claim C9 counterexample: with noise enabled and the concrete stream
0, 1, 2, 3, ..., two consecutive noise-sampling calls (threaded through the
shared hidden random state, as the global numpy generator is) return
different noise sequences: the first sample of the first call differs from
the first sample of the second call, so noise sampling is not a
deterministic function of any caller-supplied seed and depends on the
process-wide state advanced by earlier calls. -/
theorem C9_counterexample :
    ((ASE_noise cfg9 1 rng0).map (fun q => q.1 0))
      ≠ (((ASE_noise cfg9 1 rng0).bind (fun q => ASE_noise cfg9 1 q.2)).map
          (fun q => q.1 0)) := by
  have hc : Real.sqrt ((1 : ℝ) / cfg9.dt) = 1 := by
    have hdt : cfg9.dt = 1 := rfl
    rw [hdt]
    norm_num
  have hs : 0 < Real.sqrt 0.5 := Real.sqrt_pos.mpr (by norm_num)
  unfold ASE_noise randn
  rw [cfg9_power]
  simp only [Option.some_bind, Option.map_some']
  intro h
  have hv := Option.some_inj.mp h
  have hre := congrArg Complex.re hv
  simp only [rng0, hc] at hre
  simp [Complex.add_re, Complex.mul_re, Complex.I_re, Complex.I_im, Complex.ofReal_re,
    Complex.ofReal_im] at hre
  nlinarith [hs]

/-- Claim C9 (amended): noise synthesis is deterministic only relative to
the hidden process-wide random stream: the output of _ASE_noise is a
function of the 2n stream draws at the current shared offset (two states
agreeing on that segment give identical noise), and every call advances the
shared offset by 2n, so consecutive calls consume a shared mutable global
state; no caller-supplied seed parameter exists. -/
theorem C9_noise_stream_determinism (L : LinkCfg) (n : ℕ) (s t : RngState)
    (hseg : ∀ k < 2 * n, s.stream (s.offset + k) = t.stream (t.offset + k)) :
    (ASE_noise L n s).map Prod.fst = (ASE_noise L n t).map Prod.fst
      ∧ ∀ v s2, ASE_noise L n s = some (v, s2) → s2.offset = s.offset + 2 * n := by
  constructor
  · unfold ASE_noise randn
    cases hp : ASE_noise_power L.noise (gainDb L) L.noiseFigure L.centerFrequency with
    | none => rfl
    | some P =>
      simp only [Option.map_some']
      refine congrArg some ?_
      funext j
      show ((Real.sqrt (P / L.dt) : ℝ) : ℂ) *
          (((Real.sqrt 0.5 : ℝ) : ℂ) * (((s.stream (s.offset + (j : ℕ)) : ℝ) : ℂ) +
            Complex.I * ((s.stream (s.offset + n + (j : ℕ)) : ℝ) : ℂ)))
        = ((Real.sqrt (P / L.dt) : ℝ) : ℂ) *
          (((Real.sqrt 0.5 : ℝ) : ℂ) * (((t.stream (t.offset + (j : ℕ)) : ℝ) : ℂ) +
            Complex.I * ((t.stream (t.offset + n + (j : ℕ)) : ℝ) : ℂ)))
      have hj1 : s.stream (s.offset + (j : ℕ)) = t.stream (t.offset + (j : ℕ)) :=
        hseg (j : ℕ) (by omega)
      have hj2 : s.stream (s.offset + n + (j : ℕ)) = t.stream (t.offset + n + (j : ℕ)) := by
        have hx := hseg (n + (j : ℕ)) (by omega)
        rw [← add_assoc, ← add_assoc] at hx
        exact hx
      rw [hj1, hj2]
  · intro v s2 hcall
    unfold ASE_noise randn at hcall
    cases hp : ASE_noise_power L.noise (gainDb L) L.noiseFigure L.centerFrequency with
    | none => rw [hp] at hcall; exact absurd hcall (by simp)
    | some P =>
      rw [hp] at hcall
      have hpair := Option.some_inj.mp hcall
      have hs2 := congrArg Prod.snd hpair
      simp only at hs2
      rw [← hs2]
      show s.offset + n + n = s.offset + 2 * n
      omega

/-- Witness for the amended C9: two identical states trivially agree on the
consumed segment, and the determinism conclusion holds at the concrete
instance. -/
theorem C9_noise_stream_determinism_witness :
    (∀ k < 2 * 1, rng0.stream (rng0.offset + k) = rng0.stream (rng0.offset + k)) ∧
      (ASE_noise cfg9 1 rng0).map Prod.fst = (ASE_noise cfg9 1 rng0).map Prod.fst :=
  ⟨fun _ _ => rfl, (C9_noise_stream_determinism cfg9 1 rng0 rng0 (fun _ _ => rfl)).1⟩

end NFDMLab
